import Mathlib

/-!
Shallow embedding of the `blockchain_basic` repository's consensus core
(`src/lib.rs` and the gossip handler of `src/p2p.rs`).

Modelling conventions:
* Rust `u64` and byte values become `Nat`; `i64` timestamps become `Int`.
* Rust `String` becomes Lean `String`; where the source manipulates the
  character sequence of a string (the binary representation built by
  `hash_to_binary_representation` and consumed by `starts_with`) we work on
  `List Char`, the character sequence of the string the source builds.
* SHA-256 (the external `sha2` crate) is a parameter `sha256` of the
  embedding; the repository's own `calculate_hash` (its JSON canonical form
  included) is embedded faithfully on top of it.
* Panics (`unwrap`, `panic!`) are modelled by `Option`: `none` is a panic.
* The miner's `rand::thread_rng` nonce stream is a parameter `rng : Nat → Nat`,
  and its unbounded `loop` gets explicit fuel; `none` means fuel ran out.
-/

namespace Blockchain

/-- `const DIFFICULTY_PREFIX: &str = "00";` (src/lib.rs line 7). -/
def DIFFICULTY_PREFIX : String := "00"

/-- Fuel-indexed helper for `binChars`; any fuel above the argument suffices,
and structural recursion on the fuel keeps the function kernel-computable. -/
def binCharsAux : Nat → Nat → List Char
  | 0, _ => []
  | fuel + 1, n =>
    if n < 2 then [if n = 1 then '1' else '0']
    else binCharsAux fuel (n / 2) ++ [if n % 2 = 1 then '1' else '0']

/-- The characters of Rust's `format!("{:b}", c)` for a byte `c`: the minimal
binary representation, with no zero padding (`0` prints as `"0"`). -/
def binChars (n : Nat) : List Char := binCharsAux (n + 1) n

/-- `hash_to_binary_representation` (src/lib.rs lines 9-15): concatenates
`format!("{:b}", c)` over the bytes of the hash. We model the resulting
string by its character sequence. -/
def hash_to_binary_representation (hash : List Nat) : List Char :=
  (hash.map binChars).flatten

/-- The test both the miner and the validator run on a raw digest:
`hash_to_binary_representation(&hash).starts_with(DIFFICULTY_PREFIX)`. -/
def difficulty_ok (hash : List Nat) : Bool :=
  DIFFICULTY_PREFIX.data.isPrefixOf (hash_to_binary_representation hash)

/-- Lowercase hexadecimal digit characters, as `hex::encode` emits them. -/
def hexDigitChar (d : Nat) : Char :=
  match d with
  | 0 => '0' | 1 => '1' | 2 => '2' | 3 => '3'
  | 4 => '4' | 5 => '5' | 6 => '6' | 7 => '7'
  | 8 => '8' | 9 => '9' | 10 => 'a' | 11 => 'b'
  | 12 => 'c' | 13 => 'd' | 14 => 'e' | _ => 'f'

/-- The value of a hexadecimal digit character, upper or lower case, as
`hex::decode` accepts them; `none` for a non-hex character. -/
def hexDigitVal (c : Char) : Option Nat :=
  let n := c.toNat
  if 48 ≤ n ∧ n ≤ 57 then some (n - 48)
  else if 97 ≤ n ∧ n ≤ 102 then some (n - 87)
  else if 65 ≤ n ∧ n ≤ 70 then some (n - 55)
  else none

/-- `hex::decode` on a character sequence: two hex digits per byte, failing on
an odd-length input or a non-hex character. -/
def hexDecodeChars : List Char → Option (List Nat)
  | [] => some []
  | [_] => none
  | c1 :: c2 :: rest =>
    match hexDigitVal c1, hexDigitVal c2, hexDecodeChars rest with
    | some hi, some lo, some bs => some ((16 * hi + lo) :: bs)
    | _, _, _ => none

/-- `hex::decode` on a Rust `String`. -/
def hexDecode (s : String) : Option (List Nat) :=
  hexDecodeChars s.data

/-- `hex::encode` on a byte sequence: two lowercase hex digits per byte. -/
def hexEncodeChars : List Nat → List Char
  | [] => []
  | b :: bs => hexDigitChar (b / 16) :: hexDigitChar (b % 16) :: hexEncodeChars bs

/-- `hex::encode` producing a Rust `String`. -/
def hexEncode (bytes : List Nat) : String :=
  String.mk (hexEncodeChars bytes)

/-- Decimal digit characters for serde_json's integer rendering. -/
def digitChar (d : Nat) : Char :=
  match d with
  | 0 => '0' | 1 => '1' | 2 => '2' | 3 => '3' | 4 => '4'
  | 5 => '5' | 6 => '6' | 7 => '7' | 8 => '8' | _ => '9'

/-- serde_json's decimal rendering of an unsigned integer. -/
def natChars (n : Nat) : List Char :=
  if n = 0 then ['0'] else (Nat.digits 10 n).reverse.map digitChar

/-- serde_json's decimal rendering of a signed integer. -/
def intChars (i : Int) : List Char :=
  if i < 0 then '-' :: natChars i.natAbs else natChars i.toNat

/-- serde_json's escaping of one character inside a JSON string: `"` and `\`
get a backslash, the five short control escapes are used where they exist,
the remaining control characters become `\u00XX`, and every other character
is emitted as itself. -/
def escapeChar (c : Char) : List Char :=
  if c = '"' then ['\\', '"']
  else if c = '\\' then ['\\', '\\']
  else if c.toNat = 8 then ['\\', 'b']
  else if c.toNat = 9 then ['\\', 't']
  else if c.toNat = 10 then ['\\', 'n']
  else if c.toNat = 12 then ['\\', 'f']
  else if c.toNat = 13 then ['\\', 'r']
  else if c.toNat < 32 then
    ['\\', 'u', '0', '0', hexDigitChar (c.toNat / 16), hexDigitChar (c.toNat % 16)]
  else [c]

/-- serde_json's escaping of a JSON string body. -/
def escapeChars (s : List Char) : List Char :=
  (s.map escapeChar).flatten

/-- The compact JSON text `serde_json::json!({... five fields ...}).to_string()`
produces inside `calculate_hash` (src/lib.rs lines 31-42): `serde_json::Value`
objects hold their keys sorted, so the field order is `data`, `id`, `nonce`,
`previous_hash`, `timestamp`. -/
def hashInputChars (id : Nat) (timestamp : Int) (previous_hash data : String)
    (nonce : Nat) : List Char :=
  "\x7b\"data\":\"".data ++ escapeChars data.data
    ++ "\",\"id\":".data ++ natChars id
    ++ ",\"nonce\":".data ++ natChars nonce
    ++ ",\"previous_hash\":\"".data ++ escapeChars previous_hash.data
    ++ "\",\"timestamp\":".data ++ intChars timestamp
    ++ "\x7d".data

/-- `calculate_hash` (src/lib.rs lines 31-42): SHA-256 of the canonical JSON
serialization of the five fields. The digest function itself (the `sha2`
crate) is external to the repository and is a parameter of the embedding. -/
def calculate_hash (sha256 : String → List Nat) (id : Nat) (timestamp : Int)
    (previous_hash data : String) (nonce : Nat) : List Nat :=
  sha256 (String.mk (hashInputChars id timestamp previous_hash data nonce))

/-- `struct Block` (src/lib.rs lines 21-29). -/
structure Block where
  id : Nat
  timestamp : Int
  nonce : Nat
  hash : String
  previous_hash : String
  data : String
deriving DecidableEq, Repr

/-- `Block::calculate_hash` (src/lib.rs lines 80-82). -/
def Block.calculate_hash (sha256 : String → List Nat) (b : Block) : List Nat :=
  Blockchain.calculate_hash sha256 b.id b.timestamp b.previous_hash b.data b.nonce

/-- `Block::can_extend_to` (src/lib.rs lines 84-101): the four early-return
checks, in source order. -/
def Block.can_extend_to (sha256 : String → List Nat) (self next_block : Block) :
    Bool :=
  if next_block.id ≠ self.id + 1 then false
  else if next_block.previous_hash ≠ self.hash then false
  else
    match hexDecode next_block.hash with
    | some decoded_hash =>
      if ¬ (difficulty_ok decoded_hash) then false
      else hexEncode (next_block.calculate_hash sha256) = next_block.hash
    | none => false

/-- The `loop` inside `mine_block` (src/lib.rs lines 50-63): try the current
nonce; on failure draw the next nonce from the random stream `rng` and retry.
`fuel` bounds the unbounded source loop; `none` means fuel ran out before a
nonce satisfied the difficulty predicate. -/
def mineLoop (sha256 : String → List Nat) (id : Nat) (timestamp : Int)
    (previous_hash data : String) (rng : Nat → Nat) :
    Nat → Nat → Nat → Option (Nat × String)
  | 0, _, _ => none
  | fuel + 1, nonce, i =>
    let hash := calculate_hash sha256 id timestamp previous_hash data nonce
    if difficulty_ok hash then some (nonce, hexEncode hash)
    else mineLoop sha256 id timestamp previous_hash data rng fuel (rng i) (i + 1)

/-- `mine_block` (src/lib.rs lines 44-64): the search starts at nonce `0`. -/
def mine_block (sha256 : String → List Nat) (id : Nat) (timestamp : Int)
    (previous_hash data : String) (rng : Nat → Nat) (fuel : Nat) :
    Option (Nat × String) :=
  mineLoop sha256 id timestamp previous_hash data rng fuel 0 0

/-- `Block::new` (src/lib.rs lines 66-78); the mining-time timestamp
(`Utc::now().timestamp()`) is a parameter. -/
def Block.new (sha256 : String → List Nat) (id : Nat) (timestamp : Int)
    (previous_hash data : String) (rng : Nat → Nat) (fuel : Nat) :
    Option Block :=
  (mine_block sha256 id timestamp previous_hash data rng fuel).map
    fun p => { id := id, timestamp := timestamp, nonce := p.1, hash := p.2,
               previous_hash := previous_hash, data := data }

/-- `struct App` (src/lib.rs lines 17-19). -/
structure App where
  blocks : List Block
deriving DecidableEq, Repr

/-- The hardcoded genesis block `App::genesis` pushes (src/lib.rs lines
115-124); its mining-time timestamp is a parameter. -/
def genesis_block (timestamp : Int) : Block :=
  { id := 0, timestamp := timestamp,
    hash := "0000f816a87f806bb0073dcf026a64fb40c946b5abee2573702828694d5b4c43",
    previous_hash := "genesis", data := "genesis!", nonce := 2836 }

/-- `App::new` (src/lib.rs lines 109-113): an empty chain followed by
`genesis()`, so the chain holds exactly the genesis block. -/
def App.new (timestamp : Int) : App :=
  { blocks := [genesis_block timestamp] }

/-- `App::get_last_block` (src/lib.rs lines 166-168): `last().unwrap()`,
modelled by `getLast?` with `none` standing for the panic on an empty chain. -/
def App.get_last_block (app : App) : Option Block :=
  app.blocks.getLast?

/-- `App::try_add_block` (src/lib.rs lines 127-134). The outer `Option` models
the `unwrap` panic on an empty chain; inside, the mutated `App` is returned
next to the `Result` (`Except.error` is the source's
`Err("could not add invalid block")`, on which the chain is untouched). -/
def App.try_add_block (sha256 : String → List Nat) (app : App) (block : Block) :
    Option (App × Except String Unit) :=
  match app.blocks.getLast? with
  | none => none
  | some last =>
    if last.can_extend_to sha256 block then
      some ({ blocks := app.blocks ++ [block] }, Except.ok ())
    else
      some (app, Except.error "could not add invalid block")

/-- `App::is_chain_valid` (src/lib.rs lines 136-144): for `i` in
`1..chain.len()`, check `chain[i-1].can_extend_to(&chain[i])`; the method
reads nothing from `self`. The out-of-range match arm is never taken. -/
def App.is_chain_valid (sha256 : String → List Nat) (chain : List Block) :
    Bool :=
  (List.range' 1 (chain.length - 1)).all fun i =>
    match chain[i - 1]?, chain[i]? with
    | some prev, some next => prev.can_extend_to sha256 next
    | _, _ => true

/-- `App::choose_chain` (src/lib.rs lines 146-164); `none` models the
`panic!("local and remote chains are both invalid")`. -/
def App.choose_chain (sha256 : String → List Nat) (loc remote : List Block) :
    Option (List Block) :=
  let is_local_valid := App.is_chain_valid sha256 loc
  let is_remote_valid := App.is_chain_valid sha256 remote
  if is_local_valid && is_remote_valid then
    if loc.length ≥ remote.length then some loc else some remote
  else if !is_local_valid && !is_remote_valid then none
  else if is_local_valid then some loc else some remote

/-- `struct ChainResponse` (src/p2p.rs lines 22-26). -/
structure ChainResponse where
  blocks : List Block
  receiver : String
deriving DecidableEq, Repr

/-- The `ChainResponse` branch of the floodsub `inject_event` handler
(src/p2p.rs lines 94-100): a response addressed to the local peer replaces
the chain with `choose_chain(local, remote)`; any other response leaves the
app untouched. `none` models the panic `choose_chain` can raise. -/
def inject_chain_response (sha256 : String → List Nat) (peer_id : String)
    (app : App) (resp : ChainResponse) : Option App :=
  if resp.receiver = peer_id then
    (App.choose_chain sha256 app.blocks resp.blocks).map
      fun chosen => { blocks := chosen }
  else some app

/-- serde_json's serialization of a `Block` (derive `Serialize` keeps the
struct's field declaration order): the character sequence of
`serde_json::to_string(&block)`, i.e.
`{"id":N,"timestamp":T,"nonce":N,"hash":"H","previous_hash":"P","data":"D"}`
with the string fields escaped. The closing quote after each string body is
written as an explicit cons cell and the chunks are grouped to the right so
the term lines up with the parser's steps; the character sequence is the
same either way. -/
def blockChars (b : Block) : List Char :=
  "\x7b\"id\":".data ++ (natChars b.id
    ++ (",\"timestamp\":".data ++ (intChars b.timestamp
    ++ (",\"nonce\":".data ++ (natChars b.nonce
    ++ (",\"hash\":\"".data ++ (escapeChars b.hash.data
    ++ '"' :: (",\"previous_hash\":\"".data ++ (escapeChars b.previous_hash.data
    ++ '"' :: (",\"data\":\"".data ++ (escapeChars b.data.data
    ++ '"' :: "\x7d".data)))))))))))

/-- `serde_json::to_string(&block)`: the Block wire format. -/
def serializeBlock (b : Block) : String :=
  String.mk (blockChars b)

/-- Consume an expected literal chunk of the wire format. -/
def parseLit : List Char → List Char → Option (List Char)
  | [], l => some l
  | _ :: _, [] => none
  | c :: cs, x :: xs => if x = c then parseLit cs xs else none

/-- Whether a character is a decimal digit. -/
def isDigitChar (c : Char) : Bool :=
  48 ≤ c.toNat ∧ c.toNat ≤ 57

/-- Whether a character sequence is empty or starts with a non-digit: the
boundary condition after a maximal digit run. -/
def headNotDigitB (l : List Char) : Bool :=
  match l.head? with
  | some c => !isDigitChar c
  | none => true

/-- Parse a decimal unsigned integer: the maximal run of digit characters. -/
def parseNatChars (l : List Char) : Option (Nat × List Char) :=
  let ds := l.takeWhile isDigitChar
  if ds = [] then none
  else some (ds.foldl (fun a c => 10 * a + (c.toNat - 48)) 0,
             l.dropWhile isDigitChar)

/-- Parse a decimal signed integer: an optional minus sign, then digits. -/
def parseIntChars (l : List Char) : Option (Int × List Char) :=
  match l with
  | '-' :: rest => (parseNatChars rest).map fun p => (-(p.1 : Int), p.2)
  | _ => (parseNatChars l).map fun p => ((p.1 : Int), p.2)

/-- Parse a JSON string body up to and including its closing quote, undoing
serde_json's escapes (the characters serde_json emits raw come back raw). -/
def parseStringBody (l : List Char) : Option (List Char × List Char) :=
  match l with
  | [] => none
  | c :: rest =>
    if c = '"' then some ([], rest)
    else if c = '\\' then
      match rest with
      | [] => none
      | e :: rest2 =>
        if e = '"' then (parseStringBody rest2).map fun p => ('"' :: p.1, p.2)
        else if e = '\\' then
          (parseStringBody rest2).map fun p => ('\\' :: p.1, p.2)
        else if e = 'b' then
          (parseStringBody rest2).map fun p => (Char.ofNat 8 :: p.1, p.2)
        else if e = 't' then
          (parseStringBody rest2).map fun p => (Char.ofNat 9 :: p.1, p.2)
        else if e = 'n' then
          (parseStringBody rest2).map fun p => (Char.ofNat 10 :: p.1, p.2)
        else if e = 'f' then
          (parseStringBody rest2).map fun p => (Char.ofNat 12 :: p.1, p.2)
        else if e = 'r' then
          (parseStringBody rest2).map fun p => (Char.ofNat 13 :: p.1, p.2)
        else if e = 'u' then
          match rest2 with
          | h1 :: h2 :: h3 :: h4 :: rest3 =>
            match hexDigitVal h1, hexDigitVal h2, hexDigitVal h3, hexDigitVal h4 with
            | some a, some b, some c2, some d =>
              (parseStringBody rest3).map
                fun p => (Char.ofNat (((a * 16 + b) * 16 + c2) * 16 + d) :: p.1, p.2)
            | _, _, _, _ => none
          | _ => none
        else none
    else (parseStringBody rest).map fun p => (c :: p.1, p.2)
termination_by l.length
decreasing_by all_goals (simp_all; try omega)

/-- Parse the Block wire format back into a `Block`: the inverse direction of
the round trip, specialized to the canonical field order `serde_json` emits
(serde's deserializer accepts exactly these fields in any order; on the
serializer's output the two agree). -/
def parseBlockChars (l : List Char) : Option Block := do
  let l ← parseLit "\x7b\"id\":".data l
  let (id, l) ← parseNatChars l
  let l ← parseLit ",\"timestamp\":".data l
  let (timestamp, l) ← parseIntChars l
  let l ← parseLit ",\"nonce\":".data l
  let (nonce, l) ← parseNatChars l
  let l ← parseLit ",\"hash\":\"".data l
  let (hash, l) ← parseStringBody l
  let l ← parseLit ",\"previous_hash\":\"".data l
  let (previous_hash, l) ← parseStringBody l
  let l ← parseLit ",\"data\":\"".data l
  let (data, l) ← parseStringBody l
  let l ← parseLit "\x7d".data l
  match l with
  | [] => some { id := id, timestamp := timestamp, nonce := nonce,
                 hash := String.mk hash, previous_hash := String.mk previous_hash,
                 data := String.mk data }
  | _ => none

/-- `serde_json::from_slice::<Block>` on a wire-format string. -/
def parseBlock (s : String) : Option Block :=
  parseBlockChars s.data

/-! ### Helper lemmas -/

theorem binCharsAux_congr {fuel fuel' n : Nat} (h : n < fuel) (h' : n < fuel') :
    binCharsAux fuel n = binCharsAux fuel' n := by
  induction fuel generalizing fuel' n with
  | zero => omega
  | succ f ih =>
    cases fuel' with
    | zero => omega
    | succ f' =>
      simp only [binCharsAux]
      by_cases h2 : n < 2
      · simp [h2]
      · rw [if_neg h2, if_neg h2,
          ih (by omega) (show n / 2 < f' by omega)]

theorem binChars_of_ge_two {n : Nat} (h : 2 ≤ n) :
    binChars n = binChars (n / 2) ++ [if n % 2 = 1 then '1' else '0'] := by
  show binCharsAux (n + 1) n = _
  simp only [binCharsAux, if_neg (by omega : ¬ n < 2)]
  rw [binCharsAux_congr (by omega) (Nat.lt_succ_self (n / 2))]
  rfl

/-- `format!("{:b}", n)` is a nonempty string whose first character is `'1'`
exactly when `n` is nonzero: there is no zero padding. -/
theorem binChars_head (n : Nat) :
    ∃ t, binChars n = (if n = 0 then '0' else '1') :: t := by
  induction n using Nat.strong_induction_on with
  | _ n ih =>
    by_cases h2 : n < 2
    · interval_cases n
      · exact ⟨[], rfl⟩
      · exact ⟨[], rfl⟩
    · obtain ⟨t, ht⟩ := ih (n / 2) (Nat.div_lt_self (by omega) (by omega))
      refine ⟨t ++ [if n % 2 = 1 then '1' else '0'], ?_⟩
      rw [binChars_of_ge_two (by omega), ht]
      have h0 : ¬ (n = 0) := by omega
      have h0' : ¬ (n / 2 = 0) := by omega
      simp [h0, h0']

/-- What the source's difficulty test on a digest of at least two bytes
computes: because `format!("{:b}", byte)` emits no leading zeros, the
concatenated binary string starts with `"00"` exactly when the first two
bytes are both zero. -/
theorem difficulty_ok_cons (b0 b1 : Nat) (rest : List Nat) :
    difficulty_ok (b0 :: b1 :: rest) = true ↔ b0 = 0 ∧ b1 = 0 := by
  have hp : DIFFICULTY_PREFIX.data = ['0', '0'] := rfl
  by_cases hb0 : b0 = 0
  · subst hb0
    have h0 : binChars 0 = ['0'] := rfl
    by_cases hb1 : b1 = 0
    · subst hb1
      simp [difficulty_ok, hash_to_binary_representation, hp, h0,
        List.isPrefixOf]
    · obtain ⟨t1, ht1⟩ := binChars_head b1
      rw [if_neg hb1] at ht1
      simp [difficulty_ok, hash_to_binary_representation, hp, h0, ht1,
        List.isPrefixOf, hb1]
  · obtain ⟨t0, ht0⟩ := binChars_head b0
    rw [if_neg hb0] at ht0
    simp [difficulty_ok, hash_to_binary_representation, hp, ht0,
      List.isPrefixOf, hb0]

/-! ### The claims -/

/-- C5 counterexample: the digest whose first byte is `0x20 = 32` (its two
leading bits are zero, `32 < 64`) followed by 31 zero bytes is a 32-byte
digest the difficulty predicate rejects, so "accepts exactly when the two
leading bits are zero" is false on the code. -/
theorem difficulty_prefix_counterexample :
    (32 :: List.replicate 31 0).length = 32 ∧ 32 < 64 ∧
      difficulty_ok (32 :: List.replicate 31 0) = false := by decide

/-- C5 (amended): for every digest of at least two bytes (in particular every
32-byte SHA-256 digest), the difficulty predicate with the default prefix
`"00"` accepts it exactly when its first two bytes are both zero — not when
its first two bits are zero, since `format!("{:b}", byte)` emits no leading
zeros. -/
theorem difficulty_ok_iff_first_two_bytes (bytes : List Nat)
    (h : 2 ≤ bytes.length) :
    difficulty_ok bytes = true ↔ bytes[0]? = some 0 ∧ bytes[1]? = some 0 := by
  match bytes with
  | [] => simp at h
  | [_] => simp at h
  | b0 :: b1 :: rest =>
    rw [difficulty_ok_cons]
    simp

/-- C5 witness: the amended equivalence evaluated at the concrete 32-byte
digest `0x00 0x00 0xff …`. -/
theorem difficulty_ok_iff_first_two_bytes_witness :
    difficulty_ok (0 :: 0 :: List.replicate 30 255) = true ↔
      (0 :: 0 :: List.replicate 30 255)[0]? = some 0 ∧
        (0 :: 0 :: List.replicate 30 255)[1]? = some 0 :=
  difficulty_ok_iff_first_two_bytes (0 :: 0 :: List.replicate 30 255) (by decide)

/-- C10: a chain of length zero or one is always reported valid by
`is_chain_valid`: the loop over `1..chain.len()` is empty, so the first
block — a purported genesis with arbitrary hash, nonce or data — is never
itself validated. -/
theorem is_chain_valid_short (sha256 : String → List Nat) (chain : List Block)
    (h : chain.length ≤ 1) : App.is_chain_valid sha256 chain = true := by
  unfold App.is_chain_valid
  rw [show chain.length - 1 = 0 by omega]
  rfl

/-- C10 witness: the single-block chain holding a garbage genesis (hash not
even hex, arbitrary nonce and data) passes `is_chain_valid`. -/
theorem is_chain_valid_short_witness :
    App.is_chain_valid (fun _ => []) [⟨5, -3, 7, "zz", "junk", "anything"⟩]
      = true :=
  is_chain_valid_short (fun _ => []) [⟨5, -3, 7, "zz", "junk", "anything"⟩]
    (by decide)

/-- C2: `can_extend_to(prev, next)` is true exactly when the four chain-level
invariants hold: successor id, hash linkage, a hex-decodable hash whose
binary representation starts with the difficulty prefix, and a recomputed
content hash that reproduces `next.hash` exactly. -/
theorem can_extend_to_iff (sha256 : String → List Nat) (prev next : Block) :
    Block.can_extend_to sha256 prev next = true ↔
      (next.id = prev.id + 1 ∧
       next.previous_hash = prev.hash ∧
       (∃ bytes, hexDecode next.hash = some bytes ∧
          difficulty_ok bytes = true) ∧
       hexEncode (next.calculate_hash sha256) = next.hash) := by
  unfold Block.can_extend_to
  by_cases h1 : next.id = prev.id + 1
  · by_cases h2 : next.previous_hash = prev.hash
    · cases hd : hexDecode next.hash with
      | none => simp [h1, h2, hd]
      | some bytes =>
        by_cases h3 : difficulty_ok bytes = true
        · simp [h1, h2, hd, h3]
        · simp only [Bool.not_eq_true] at h3
          simp [h1, h2, hd, h3]
    · simp [h1, h2]
  · simp [h1]

/-- C1: the fork-choice rule. Both chains valid: the longer wins and a tie
keeps the local chain; exactly one valid: that one wins regardless of
length; neither valid: the call panics (`none`). -/
theorem choose_chain_spec (sha256 : String → List Nat)
    (loc remote : List Block) :
    (App.is_chain_valid sha256 loc = true →
       App.is_chain_valid sha256 remote = true →
       App.choose_chain sha256 loc remote =
         some (if loc.length ≥ remote.length then loc else remote)) ∧
    (App.is_chain_valid sha256 loc = true →
       App.is_chain_valid sha256 remote = false →
       App.choose_chain sha256 loc remote = some loc) ∧
    (App.is_chain_valid sha256 loc = false →
       App.is_chain_valid sha256 remote = true →
       App.choose_chain sha256 loc remote = some remote) ∧
    (App.is_chain_valid sha256 loc = false →
       App.is_chain_valid sha256 remote = false →
       App.choose_chain sha256 loc remote = none) := by
  unfold App.choose_chain
  refine ⟨fun hl hr => ?_, fun hl hr => ?_, fun hl hr => ?_, fun hl hr => ?_⟩ <;>
    simp [hl, hr]
  rw [apply_ite some]

/-- C1 witness: with both chains valid and the remote strictly longer, the
remote chain is adopted (concrete two-block remote against a one-block
local, hash function fixed to the two-zero-byte digest). -/
theorem choose_chain_spec_witness :
    App.choose_chain (fun _ => [0, 0]) [⟨0, 7, 0, "0000", "genesis", "gen"⟩]
      [⟨0, 7, 0, "0000", "genesis", "gen"⟩, ⟨1, 9, 5, "0000", "0000", "x"⟩] =
      some [⟨0, 7, 0, "0000", "genesis", "gen"⟩,
            ⟨1, 9, 5, "0000", "0000", "x"⟩] := by
  have h := (choose_chain_spec (fun _ => [0, 0])
    [⟨0, 7, 0, "0000", "genesis", "gen"⟩]
    [⟨0, 7, 0, "0000", "genesis", "gen"⟩, ⟨1, 9, 5, "0000", "0000", "x"⟩]).1
    (by decide) (by decide)
  simpa using h

/-- C4: `is_chain_valid` holds exactly when every adjacent pair of the chain
satisfies `can_extend_to`; a chain with at most one element is trivially
valid (the quantifier is vacuous). -/
theorem is_chain_valid_iff (sha256 : String → List Nat) (chain : List Block) :
    App.is_chain_valid sha256 chain = true ↔
      ∀ i : Nat, (h : i + 1 < chain.length) →
        (chain.get ⟨i, by omega⟩).can_extend_to sha256
          (chain.get ⟨i + 1, h⟩) = true := by
  unfold App.is_chain_valid
  rw [List.all_eq_true]
  constructor
  · intro hall i hi
    have hmem : (i + 1) ∈ List.range' 1 (chain.length - 1) := by
      rw [List.mem_range'_1]; omega
    have hthis := hall _ hmem
    rw [show i + 1 - 1 = i from rfl,
        List.getElem?_eq_getElem (show i < chain.length by omega),
        List.getElem?_eq_getElem hi] at hthis
    simpa using hthis
  · intro hfa i hmem
    rw [List.mem_range'_1] at hmem
    have hi : i < chain.length := by omega
    have hi1 : i - 1 < chain.length := by omega
    rw [List.getElem?_eq_getElem hi1, List.getElem?_eq_getElem hi]
    have hthis := hfa (i - 1) (by omega)
    simpa [show i - 1 + 1 = i by omega] using hthis

/-- C3: with a nonempty chain whose last block is `last`, `try_add_block`
appends the candidate exactly when `can_extend_to(last, candidate)` holds
(the chain grows by one block, at the end); otherwise it returns the
"could not add invalid block" error and the app is returned unchanged. -/
theorem try_add_block_spec (sha256 : String → List Nat) (app : App)
    (block last : Block) (h : app.blocks.getLast? = some last) :
    (last.can_extend_to sha256 block = true →
       App.try_add_block sha256 app block =
         some ({ blocks := app.blocks ++ [block] }, Except.ok ()) ∧
       (app.blocks ++ [block]).length = app.blocks.length + 1) ∧
    (last.can_extend_to sha256 block = false →
       App.try_add_block sha256 app block =
         some (app, Except.error "could not add invalid block")) := by
  have he : App.try_add_block sha256 app block =
      if last.can_extend_to sha256 block = true then
        some ({ blocks := app.blocks ++ [block] }, Except.ok ())
      else some (app, Except.error "could not add invalid block") := by
    unfold App.try_add_block
    rw [h]
  constructor
  · intro hc
    rw [he, if_pos hc]
    simp
  · intro hc
    rw [he, if_neg (by simp [hc])]

/-- C3 witness: on the concrete one-block chain, the extending block is
appended with `Ok` and the chain length goes from one to two. -/
theorem try_add_block_spec_witness :
    App.try_add_block (fun _ => [0, 0]) ⟨[⟨0, 7, 0, "0000", "genesis", "gen"⟩]⟩
        ⟨1, 9, 5, "0000", "0000", "x"⟩ =
      some ({ blocks := [⟨0, 7, 0, "0000", "genesis", "gen"⟩] ++
                [⟨1, 9, 5, "0000", "0000", "x"⟩] }, Except.ok ()) ∧
    ([(⟨0, 7, 0, "0000", "genesis", "gen"⟩ : Block)] ++
        [(⟨1, 9, 5, "0000", "0000", "x"⟩ : Block)]).length =
      [(⟨0, 7, 0, "0000", "genesis", "gen"⟩ : Block)].length + 1 :=
  (try_add_block_spec (fun _ => [0, 0])
    (⟨[⟨0, 7, 0, "0000", "genesis", "gen"⟩]⟩ : App)
    (⟨1, 9, 5, "0000", "0000", "x"⟩ : Block)
    (⟨0, 7, 0, "0000", "genesis", "gen"⟩ : Block) rfl).1 (by decide)

/-- C9: `App::new` builds a one-block (genesis) chain, `try_add_block`
preserves nonemptiness and never hits its `unwrap` panic on a nonempty
chain, `get_last_block` succeeds on every nonempty chain, and both
`get_last_block` and `try_add_block` panic (`none`) on an empty chain. -/
theorem app_chain_nonempty_safety (sha256 : String → List Nat) (ts : Int)
    (app : App) (block : Block) :
    (App.new ts).blocks ≠ [] ∧
    (app.blocks ≠ [] →
       ∃ app' res, App.try_add_block sha256 app block = some (app', res) ∧
         app'.blocks ≠ []) ∧
    (app.blocks ≠ [] → (App.get_last_block app).isSome = true) ∧
    App.get_last_block ⟨[]⟩ = none ∧
    App.try_add_block sha256 ⟨[]⟩ block = none := by
  refine ⟨by simp [App.new], ?_, ?_, rfl, rfl⟩
  · intro hne
    cases hl : app.blocks.getLast? with
    | none => exact absurd (by simpa using hl) hne
    | some last =>
      have he : App.try_add_block sha256 app block =
          if last.can_extend_to sha256 block = true then
            some ({ blocks := app.blocks ++ [block] }, Except.ok ())
          else some (app, Except.error "could not add invalid block") := by
        unfold App.try_add_block
        rw [hl]
      by_cases hc : last.can_extend_to sha256 block = true
      · exact ⟨{ blocks := app.blocks ++ [block] }, Except.ok (),
          by rw [he, if_pos hc], by simp⟩
      · exact ⟨app, Except.error "could not add invalid block",
          by rw [he, if_neg hc], hne⟩
  · intro hne
    unfold App.get_last_block
    cases hl : app.blocks.getLast? with
    | none => exact absurd (by simpa using hl) hne
    | some last => rfl

/-- C7: the `ChainResponse` handler. A response whose `receiver` is the local
peer id replaces the chain with the fork-choice result (adopting `chosen`
when `choose_chain` returns it, dying with it when `choose_chain` panics);
a response addressed to any other peer leaves the app unchanged. -/
theorem inject_chain_response_spec (sha256 : String → List Nat)
    (peer_id : String) (app : App) (resp : ChainResponse) :
    (resp.receiver = peer_id →
       ∀ chosen, App.choose_chain sha256 app.blocks resp.blocks = some chosen →
         inject_chain_response sha256 peer_id app resp =
           some { blocks := chosen }) ∧
    (resp.receiver = peer_id →
       App.choose_chain sha256 app.blocks resp.blocks = none →
       inject_chain_response sha256 peer_id app resp = none) ∧
    (resp.receiver ≠ peer_id →
       inject_chain_response sha256 peer_id app resp = some app) := by
  unfold inject_chain_response
  refine ⟨fun h chosen hc => ?_, fun h hc => ?_, fun h => ?_⟩
  · rw [if_pos h, hc]
    rfl
  · rw [if_pos h, hc]
    rfl
  · rw [if_neg h]

/-- C7 witness: the concrete response addressed to `"me"` makes the node
adopt the longer valid remote chain, and the same response addressed to
`"other"` leaves the local chain untouched. -/
theorem inject_chain_response_spec_witness :
    inject_chain_response (fun _ => [0, 0]) "me"
        ⟨[⟨0, 7, 0, "0000", "genesis", "gen"⟩]⟩
        ⟨[⟨0, 7, 0, "0000", "genesis", "gen"⟩,
          ⟨1, 9, 5, "0000", "0000", "x"⟩], "me"⟩ =
      some ⟨[⟨0, 7, 0, "0000", "genesis", "gen"⟩,
             ⟨1, 9, 5, "0000", "0000", "x"⟩]⟩ ∧
    inject_chain_response (fun _ => [0, 0]) "me"
        ⟨[⟨0, 7, 0, "0000", "genesis", "gen"⟩]⟩
        ⟨[⟨0, 7, 0, "0000", "genesis", "gen"⟩,
          ⟨1, 9, 5, "0000", "0000", "x"⟩], "other"⟩ =
      some ⟨[⟨0, 7, 0, "0000", "genesis", "gen"⟩]⟩ :=
  ⟨(inject_chain_response_spec (fun _ => [0, 0]) "me"
      ⟨[⟨0, 7, 0, "0000", "genesis", "gen"⟩]⟩
      ⟨[⟨0, 7, 0, "0000", "genesis", "gen"⟩,
        ⟨1, 9, 5, "0000", "0000", "x"⟩], "me"⟩).1 rfl
      [⟨0, 7, 0, "0000", "genesis", "gen"⟩, ⟨1, 9, 5, "0000", "0000", "x"⟩]
      (by decide),
   (inject_chain_response_spec (fun _ => [0, 0]) "me"
      ⟨[⟨0, 7, 0, "0000", "genesis", "gen"⟩]⟩
      ⟨[⟨0, 7, 0, "0000", "genesis", "gen"⟩,
        ⟨1, 9, 5, "0000", "0000", "x"⟩], "other"⟩).2.2 (by decide)⟩

theorem hexDigitVal_hexDigitChar (d : Nat) (h : d < 16) :
    hexDigitVal (hexDigitChar d) = some d := by
  interval_cases d <;> decide

theorem hexDecodeChars_hexEncodeChars (bytes : List Nat)
    (h : ∀ b ∈ bytes, b < 256) :
    hexDecodeChars (hexEncodeChars bytes) = some bytes := by
  induction bytes with
  | nil => rfl
  | cons b bs ih =>
    have hb : b < 256 := h b (by simp)
    simp only [hexEncodeChars, hexDecodeChars]
    rw [hexDigitVal_hexDigitChar (b / 16) (by omega),
        hexDigitVal_hexDigitChar (b % 16) (by omega),
        ih (fun x hx => h x (by simp [hx]))]
    show some ((16 * (b / 16) + b % 16) :: bs) = some (b :: bs)
    rw [show 16 * (b / 16) + b % 16 = b by omega]

/-- A successful run of the mining loop returns a nonce whose digest passes
the difficulty test, paired with exactly the hex encoding of that digest. -/
theorem mineLoop_some (sha256 : String → List Nat) (id : Nat)
    (timestamp : Int) (previous_hash data : String) (rng : Nat → Nat) :
    ∀ fuel nonce i n hs,
      mineLoop sha256 id timestamp previous_hash data rng fuel nonce i =
        some (n, hs) →
      difficulty_ok (calculate_hash sha256 id timestamp previous_hash data n)
        = true ∧
      hs = hexEncode (calculate_hash sha256 id timestamp previous_hash data n)
    := by
  intro fuel
  induction fuel with
  | zero =>
    intro nonce i n hs hm
    simp [mineLoop] at hm
  | succ f ih =>
    intro nonce i n hs hm
    simp only [mineLoop] at hm
    split at hm
    · simp only [Option.some.injEq, Prod.mk.injEq] at hm
      obtain ⟨rfl, rfl⟩ := hm
      exact ⟨by assumption, rfl⟩
    · exact ih _ _ _ _ hm

/-- C6: every block the miner produces (`Block::new` over `mine_block`, any
id, timestamp, previous hash and data, any nonce stream, whenever the search
returns) carries a hash whose decoded bytes pass the difficulty predicate,
and recomputing the content hash from the block's stored fields reproduces
`b.hash` exactly; the input fields are stored unchanged. -/
theorem mined_block_spec (sha256 : String → List Nat)
    (hbytes : ∀ s, ∀ x ∈ sha256 s, x < 256)
    (id : Nat) (timestamp : Int) (previous_hash data : String)
    (rng : Nat → Nat) (fuel : Nat) (b : Block)
    (hmine : Block.new sha256 id timestamp previous_hash data rng fuel
      = some b) :
    difficulty_ok (b.calculate_hash sha256) = true ∧
    hexDecode b.hash = some (b.calculate_hash sha256) ∧
    hexEncode (b.calculate_hash sha256) = b.hash ∧
    b.id = id ∧ b.timestamp = timestamp ∧ b.previous_hash = previous_hash ∧
    b.data = data := by
  unfold Block.new mine_block at hmine
  cases hm : mineLoop sha256 id timestamp previous_hash data rng fuel 0 0 with
  | none =>
    rw [hm] at hmine
    simp at hmine
  | some p =>
    obtain ⟨n, hs⟩ := p
    rw [hm] at hmine
    simp only [Option.map_some', Option.some.injEq] at hmine
    obtain ⟨hd, hh⟩ :=
      mineLoop_some sha256 id timestamp previous_hash data rng fuel 0 0 n hs hm
    subst hmine
    have hcalc : Block.calculate_hash sha256
        { id := id, timestamp := timestamp, nonce := n, hash := hs,
          previous_hash := previous_hash, data := data } =
        calculate_hash sha256 id timestamp previous_hash data n := rfl
    subst hh
    refine ⟨hd, ?_, rfl, rfl, rfl, rfl, rfl⟩
    show hexDecodeChars (hexEncodeChars _) = _
    rw [hcalc]
    exact hexDecodeChars_hexEncodeChars _ (hbytes _)

/-- C6 witness: with the digest function fixed to the two-zero-byte output,
fuel 1 and the identity nonce stream, `Block::new 1` mines the concrete block
`⟨1, 2, 0, "0000", "p", "d"⟩` and all postconditions evaluate. -/
theorem mined_block_spec_witness :
    difficulty_ok (Block.calculate_hash (fun _ => [0, 0])
      ⟨1, 2, 0, "0000", "p", "d"⟩) = true ∧
    hexDecode (Block.hash ⟨1, 2, 0, "0000", "p", "d"⟩) =
      some (Block.calculate_hash (fun _ => [0, 0])
        ⟨1, 2, 0, "0000", "p", "d"⟩) ∧
    hexEncode (Block.calculate_hash (fun _ => [0, 0])
      ⟨1, 2, 0, "0000", "p", "d"⟩) = Block.hash ⟨1, 2, 0, "0000", "p", "d"⟩ ∧
    Block.id ⟨1, 2, 0, "0000", "p", "d"⟩ = 1 ∧
    Block.timestamp ⟨1, 2, 0, "0000", "p", "d"⟩ = 2 ∧
    Block.previous_hash ⟨1, 2, 0, "0000", "p", "d"⟩ = "p" ∧
    Block.data ⟨1, 2, 0, "0000", "p", "d"⟩ = "d" :=
  mined_block_spec (fun _ => [0, 0])
    (by intro s x hx; simp at hx; omega)
    1 2 "p" "d" (fun i => i) 1 ⟨1, 2, 0, "0000", "p", "d"⟩ (by decide)

theorem parseLit_append (lit rest : List Char) :
    parseLit lit (lit ++ rest) = some rest := by
  induction lit with
  | nil => rfl
  | cons c cs ih => simp [parseLit, ih]

theorem isDigitChar_digitChar (d : Nat) (h : d < 10) :
    isDigitChar (digitChar d) = true := by
  interval_cases d <;> decide

theorem digitChar_toNat (d : Nat) (h : d < 10) :
    (digitChar d).toNat - 48 = d := by
  interval_cases d <;> decide

theorem natChars_digits (n : Nat) : ∀ c ∈ natChars n, isDigitChar c = true := by
  intro c hc
  unfold natChars at hc
  split at hc
  · simp at hc
    subst hc
    decide
  · simp only [List.mem_map, List.mem_reverse] at hc
    obtain ⟨d, hd, rfl⟩ := hc
    exact isDigitChar_digitChar d (Nat.digits_lt_base (by omega) hd)

theorem natChars_ne_nil (n : Nat) : natChars n ≠ [] := by
  unfold natChars
  split
  · simp
  · simp_all [Nat.digits_ne_nil_iff_ne_zero]

theorem foldl_base10_reverse (L : List Nat) (a : Nat) :
    L.reverse.foldl (fun x d => 10 * x + d) a =
      a * 10 ^ L.length + Nat.ofDigits 10 L := by
  induction L generalizing a with
  | nil => simp
  | cons d L ih =>
    simp only [List.reverse_cons, List.foldl_append, List.foldl_cons,
      List.foldl_nil, ih, Nat.ofDigits_cons, List.length_cons]
    ring

theorem foldl_digitChar_map (L : List Nat) (h : ∀ d ∈ L, d < 10) (a : Nat) :
    (L.map digitChar).foldl (fun x c => 10 * x + (c.toNat - 48)) a =
      L.foldl (fun x d => 10 * x + d) a := by
  induction L generalizing a with
  | nil => rfl
  | cons d L ih =>
    simp only [List.map_cons, List.foldl_cons]
    rw [digitChar_toNat d (h d (by simp)), ih (fun x hx => h x (by simp [hx]))]

theorem natChars_foldl (n : Nat) :
    (natChars n).foldl (fun a c => 10 * a + (c.toNat - 48)) 0 = n := by
  unfold natChars
  split
  · simp_all
  · rw [foldl_digitChar_map _
        (fun d hd => Nat.digits_lt_base (by omega) (List.mem_reverse.mp hd)) 0,
      foldl_base10_reverse]
    simp [Nat.ofDigits_digits]

theorem takeWhile_all_append {p : Char → Bool} (l₁ : List Char) (c : Char)
    (l₂ : List Char) (h1 : ∀ x ∈ l₁, p x = true) (h2 : p c = false) :
    (l₁ ++ c :: l₂).takeWhile p = l₁ ∧
      (l₁ ++ c :: l₂).dropWhile p = c :: l₂ := by
  induction l₁ with
  | nil => simp [List.takeWhile_cons, List.dropWhile_cons, h2]
  | cons a l ih =>
    have ha : p a = true := h1 a (by simp)
    have hr := ih (fun x hx => h1 x (by simp [hx]))
    simp [List.takeWhile_cons, List.dropWhile_cons, ha, hr.1, hr.2]

theorem parseNatChars_append (n : Nat) (c : Char) (rest : List Char)
    (hc : isDigitChar c = false) :
    parseNatChars (natChars n ++ c :: rest) = some (n, c :: rest) := by
  unfold parseNatChars
  obtain ⟨ht, hd⟩ :=
    takeWhile_all_append (natChars n) c rest (natChars_digits n) hc
  simp only [ht, hd]
  rw [if_neg (natChars_ne_nil n), natChars_foldl]

theorem takeWhile_all (l : List Char) {p : Char → Bool}
    (h : ∀ x ∈ l, p x = true) :
    l.takeWhile p = l ∧ l.dropWhile p = [] := by
  induction l with
  | nil => simp
  | cons a l ih =>
    have ha := h a (by simp)
    have hr := ih (fun x hx => h x (by simp [hx]))
    simp [List.takeWhile_cons, List.dropWhile_cons, ha, hr.1, hr.2]

theorem parseNatChars_stop (n : Nat) (t : List Char)
    (ht : headNotDigitB t = true) :
    parseNatChars (natChars n ++ t) = some (n, t) := by
  cases t with
  | nil =>
    rw [List.append_nil]
    unfold parseNatChars
    obtain ⟨h1, h2⟩ := takeWhile_all (natChars n) (natChars_digits n)
    simp only [h1, h2]
    rw [if_neg (natChars_ne_nil n), natChars_foldl]
  | cons c t2 =>
    have hc : isDigitChar c = false := by
      unfold headNotDigitB at ht
      simpa using ht
    exact parseNatChars_append n c t2 hc

theorem parseIntChars_stop (i : Int) (t : List Char)
    (ht : headNotDigitB t = true) :
    parseIntChars (intChars i ++ t) = some (i, t) := by
  unfold intChars
  by_cases hneg : i < 0
  · rw [if_pos hneg]
    have hred : parseIntChars ('-' :: (natChars i.natAbs ++ t)) =
        Option.map (fun p => (-(p.1 : Int), p.2))
          (parseNatChars (natChars i.natAbs ++ t)) := rfl
    show parseIntChars ('-' :: (natChars i.natAbs ++ t)) = _
    rw [hred, parseNatChars_stop i.natAbs t ht]
    simp only [Option.map_some']
    rw [show -((i.natAbs : Nat) : Int) = i by omega]
  · rw [if_neg hneg]
    cases hn : natChars i.toNat with
    | nil => exact absurd hn (natChars_ne_nil _)
    | cons d ds =>
      have hd : isDigitChar d = true := natChars_digits _ d (by rw [hn]; simp)
      have hdm : d ≠ '-' := by
        intro h
        rw [h] at hd
        simp [isDigitChar] at hd
      show parseIntChars (d :: (ds ++ t)) = some (i, t)
      unfold parseIntChars
      split
      · rename_i hrest heq
        injection heq with h1 h2
        exact absurd h1 hdm
      · rw [show d :: (ds ++ t) = natChars i.toNat ++ t by rw [hn]; simp]
        rw [parseNatChars_stop i.toNat t ht]
        simp only [Option.map_some']
        rw [show ((i.toNat : Nat) : Int) = i by omega]

theorem parseStringBody_escape (s rest : List Char) :
    parseStringBody (escapeChars s ++ '"' :: rest) = some (s, rest) := by
  induction s with
  | nil =>
    show parseStringBody ('"' :: rest) = some ([], rest)
    rw [parseStringBody.eq_def]
    simp
  | cons c s ih =>
    have hs : escapeChars (c :: s) ++ '"' :: rest =
        escapeChar c ++ (escapeChars s ++ '"' :: rest) := by
      simp [escapeChars]
    rw [hs]
    by_cases h1 : c = '"'
    · subst h1
      rw [show escapeChar '"' = ['\\', '"'] from rfl]
      rw [parseStringBody.eq_def]
      simp [ih]
    · by_cases h2 : c = '\\'
      · subst h2
        rw [show escapeChar '\\' = ['\\', '\\'] from rfl]
        rw [parseStringBody.eq_def]
        simp [ih]
      · by_cases h3 : c.toNat = 8
        · rw [show escapeChar c = ['\\', 'b'] by simp [escapeChar, h1, h2, h3]]
          have hc : Char.ofNat 8 = c := by rw [← h3, Char.ofNat_toNat]
          rw [parseStringBody.eq_def]
          simp [ih]
          exact hc
        · by_cases h4 : c.toNat = 9
          · rw [show escapeChar c = ['\\', 't'] by
                simp [escapeChar, h1, h2, h3, h4]]
            have hc : Char.ofNat 9 = c := by rw [← h4, Char.ofNat_toNat]
            rw [parseStringBody.eq_def]
            simp [ih]
            exact hc
          · by_cases h5 : c.toNat = 10
            · rw [show escapeChar c = ['\\', 'n'] by
                  simp [escapeChar, h1, h2, h3, h4, h5]]
              have hc : Char.ofNat 10 = c := by rw [← h5, Char.ofNat_toNat]
              rw [parseStringBody.eq_def]
              simp [ih]
              exact hc
            · by_cases h6 : c.toNat = 12
              · rw [show escapeChar c = ['\\', 'f'] by
                    simp [escapeChar, h1, h2, h3, h4, h5, h6]]
                have hc : Char.ofNat 12 = c := by rw [← h6, Char.ofNat_toNat]
                rw [parseStringBody.eq_def]
                simp [ih]
                exact hc
              · by_cases h7 : c.toNat = 13
                · rw [show escapeChar c = ['\\', 'r'] by
                      simp [escapeChar, h1, h2, h3, h4, h5, h6, h7]]
                  have hc : Char.ofNat 13 = c := by rw [← h7, Char.ofNat_toNat]
                  rw [parseStringBody.eq_def]
                  simp [ih]
                  exact hc
                · by_cases h8 : c.toNat < 32
                  · rw [show escapeChar c = ['\\', 'u', '0', '0',
                        hexDigitChar (c.toNat / 16), hexDigitChar (c.toNat % 16)]
                        by simp [escapeChar, h1, h2, h3, h4, h5, h6, h7, h8]]
                    have hv1 : hexDigitVal (hexDigitChar (c.toNat / 16)) =
                        some (c.toNat / 16) :=
                      hexDigitVal_hexDigitChar _ (by omega)
                    have hv2 : hexDigitVal (hexDigitChar (c.toNat % 16)) =
                        some (c.toNat % 16) :=
                      hexDigitVal_hexDigitChar _ (by omega)
                    have hv0 : hexDigitVal '0' = some 0 := by decide
                    rw [parseStringBody.eq_def]
                    simp [ih, hv0, hv1, hv2]
                    rw [show c.toNat / 16 * 16 + c.toNat % 16 = c.toNat
                      by omega, Char.ofNat_toNat]
                  · rw [show escapeChar c = [c] by
                        simp [escapeChar, h1, h2, h3, h4, h5, h6, h7, h8]]
                    rw [parseStringBody.eq_def]
                    simp [ih, h1, h2]



theorem parseLit_of_eq (lit : List Char) {l rest : List Char}
    (h : l = lit ++ rest) : parseLit lit l = some rest := by
  rw [h]
  exact parseLit_append lit rest

theorem stringMk_data (s : String) : String.mk s.data = s := by
  cases s
  rfl

set_option maxHeartbeats 2000000 in
theorem parseBlockChars_blockChars (b : Block) :
    parseBlockChars (blockChars b) = some b := by
  obtain ⟨id, ts, nonce, hash, ph, data⟩ := b
  simp only [blockChars, parseBlockChars]
  rw [parseLit_append]
  simp only [Option.bind_eq_bind, Option.some_bind]
  rw [parseNatChars_stop id _ (by rfl)]
  simp only [Option.bind_eq_bind, Option.some_bind]
  rw [parseLit_append]
  simp only [Option.bind_eq_bind, Option.some_bind]
  rw [parseIntChars_stop ts _ (by rfl)]
  simp only [Option.bind_eq_bind, Option.some_bind]
  rw [parseLit_append]
  simp only [Option.bind_eq_bind, Option.some_bind]
  rw [parseNatChars_stop nonce _ (by rfl)]
  simp only [Option.bind_eq_bind, Option.some_bind]
  rw [parseLit_append]
  simp only [Option.bind_eq_bind, Option.some_bind]
  rw [parseStringBody_escape]
  simp only [Option.bind_eq_bind, Option.some_bind]
  rw [parseLit_append]
  simp only [Option.bind_eq_bind, Option.some_bind]
  rw [parseStringBody_escape]
  simp only [Option.bind_eq_bind, Option.some_bind]
  rw [parseLit_append]
  simp only [Option.bind_eq_bind, Option.some_bind]
  rw [parseStringBody_escape]
  simp only [Option.bind_eq_bind, Option.some_bind]
  rw [parseLit_of_eq "\x7d".data (show ("\x7d".data : List Char) = "\x7d".data ++ []
    by rw [List.append_nil])]
  simp only [Option.bind_eq_bind, Option.some_bind, stringMk_data]


/-- C8: serializing a `Block` to its wire format and parsing the result back
yields a block equal to the original field for field (id, timestamp, nonce,
hash, previous_hash, data), and the parsed block's `can_extend_to` verdict
against any predecessor coincides with the original's. -/
theorem serializeBlock_roundtrip (sha256 : String → List Nat)
    (prev b : Block) :
    ∃ b2, parseBlock (serializeBlock b) = some b2 ∧
      b2.id = b.id ∧ b2.timestamp = b.timestamp ∧ b2.nonce = b.nonce ∧
      b2.hash = b.hash ∧ b2.previous_hash = b.previous_hash ∧
      b2.data = b.data ∧
      Block.can_extend_to sha256 prev b2 =
        Block.can_extend_to sha256 prev b := by
  refine ⟨b, ?_, rfl, rfl, rfl, rfl, rfl, rfl, rfl⟩
  show parseBlockChars (blockChars b) = some b
  exact parseBlockChars_blockChars b

end Blockchain
